import Mathlib

/-!
A shallow embedding of the VTT-to-Markdown transcript pipeline
(`vtt2md.py`, `apply_structure.py`, `enrich_links.py`): word-stream
segmentation into sentences and paragraphs, Markdown rendering with chapter
headings, structure application, link enrichment with protected spans, and
timestamp linkification.  Python floats are modelled as rationals, strings as
`String` or `List Char`, and every regular expression of the source is
modelled by an explicit deterministic scanner (each of these regexes is
deterministic: greedy character classes that cannot cross their stop
character, so no backtracking can occur).
-/

namespace Vtt2Md

attribute [local semireducible] Rat.add Rat.sub Rat.mul Rat.inv

/-- Python's `int(x)` on a rational: truncation toward zero. -/
def ratTrunc (q : ℚ) : Int := q.num / (q.den : Int)

/-- `_seconds_to_mmss`: `m, s = divmod(int(seconds), 60)` (floor division and
modulus) rendered as `f"{m}:{s:02d}"`. -/
def secondsToMMSS (q : ℚ) : String :=
  let n := ratTrunc q
  let m := Int.fdiv n 60
  let s := Int.fmod n 60
  toString m ++ ":" ++ (if s < 10 then "0" ++ toString s else toString s)

/-- The closing characters `["'’”)]` allowed after the terminal punctuation
mark in `_SENTENCE_END_RE`. -/
def isCloser (c : Char) : Bool :=
  c == '"' || c == '\'' || c == '’' || c == '”' || c == ')'

/-- `_SENTENCE_END_RE.search(word)`: the word ends in `.`, `!` or `?`,
optionally followed by closing quote/bracket characters. -/
def sentenceEnd (w : String) : Bool :=
  match w.data.reverse.dropWhile isCloser with
  | [] => false
  | c :: _ => c == '.' || c == '!' || c == '?'

/-- Python's `" ".join(words)`. -/
def joinWords : List String → String
  | [] => ""
  | [w] => w
  | w :: ws => w ++ " " ++ joinWords ws

/-- The loop state of `words_to_sentences`: the emitted units, the current
sentence buffer, the previous word's timestamp and the pending
sentence-start timestamp. -/
structure SegState where
  result  : List (Option ℚ × String)
  buffer  : List String
  prevTs  : ℚ
  pending : Option ℚ

/-- Flushing the sentence buffer as one unit: the text gets a `[M:SS] `
prefix exactly when timestamps are enabled and a pending timestamp exists
(`if timestamps and pending_ts is not None`). -/
def flushUnit (tsFlag : Bool) (pending : Option ℚ) (buf : List String) :
    Option ℚ × String :=
  match pending with
  | some p =>
    (some p,
     if tsFlag then "[" ++ secondsToMMSS p ++ "] " ++ joinWords buf else joinWords buf)
  | none => (none, joinWords buf)

/-- One iteration of the `for ts, word in words` loop of
`words_to_sentences`: paragraph-break detection on a long pause, appending
the word to the buffer, sentence-end detection, and the trailing
next-sentence-start bookkeeping, in the source's order. -/
def wtsStep (pause : ℚ) (tsFlag : Bool) (st : SegState) (w : ℚ × String) : SegState :=
  let st1 : SegState :=
    if pause < w.1 - st.prevTs ∧ (st.buffer ≠ [] ∨ st.result ≠ []) then
      { result :=
          (if st.buffer ≠ [] then st.result ++ [flushUnit tsFlag st.pending st.buffer]
           else st.result) ++ [(none, "")],
        buffer := [], prevTs := st.prevTs, pending := some w.1 }
    else st
  let st2 : SegState := { st1 with buffer := st1.buffer ++ [w.2], prevTs := w.1 }
  let st3 : SegState :=
    if sentenceEnd w.2 then
      { result := st2.result ++ [flushUnit tsFlag st2.pending st2.buffer],
        buffer := [], prevTs := st2.prevTs, pending := none }
    else st2
  if st3.pending = none ∧ st3.buffer ≠ [] then { st3 with pending := some w.1 } else st3

/-- `words_to_sentences(words, pause_threshold=pause, timestamps=tsFlag)`:
the loop over the word stream followed by the final flush of any remaining
buffered words. -/
def words_to_sentences (words : List (ℚ × String)) (pause : ℚ) (tsFlag : Bool) :
    List (Option ℚ × String) :=
  match words with
  | [] => []
  | (t0, _) :: _ =>
    let fin := words.foldl (wtsStep pause tsFlag)
      { result := [], buffer := [], prevTs := t0, pending := some t0 }
    if fin.buffer ≠ [] then fin.result ++ [flushUnit tsFlag fin.pending fin.buffer]
    else fin.result

/-- `out_lines and out_lines[-1] != ""` guarded blank-line append, used both
for paragraph breaks and before chapter headings in `format_markdown`. -/
def ensureBlank (out : List String) : List String :=
  match out.getLast? with
  | some s => if s ≠ "" then out ++ [""] else out
  | none => out

/-- The `while chapter_queue and start_ts is not None` loop of
`format_markdown`: pop the head chapter and insert its `## Title` heading
while the head chapter starts at or before `ts` *and* has a non-empty title;
any other head chapter stops the loop (`break`). -/
def consumeChapters (ts : ℚ) : List (ℚ × String) → List String → List (ℚ × String) × List String
  | [], out => ([], out)
  | (cst, ctitle) :: rest, out =>
    if cst ≤ ts ∧ ctitle ≠ "" then
      consumeChapters ts rest (ensureBlank out ++ ["## " ++ ctitle, ""])
    else ((cst, ctitle) :: rest, out)

/-- One iteration of the `for start_ts, text in sentences` loop of
`format_markdown`. -/
def fmStep (st : List (ℚ × String) × List String) (u : Option ℚ × String) :
    List (ℚ × String) × List String :=
  match u with
  | (none, text) =>
    if text = "" then (st.1, ensureBlank st.2)          -- paragraph-break sentinel
    else (st.1, st.2 ++ [text])                          -- `start_ts is None`: chapter loop skipped
  | (some ts, text) =>
    let qo := consumeChapters ts st.1 st.2
    (qo.1, qo.2 ++ [text])

/-- The sort relation of `chapter_queue`: ascending `start_time` (a stable
insertion sort models Python's stable `sorted`). -/
def byStart (a b : ℚ × String) : Prop := a.1 ≤ b.1

instance : DecidableRel byStart := fun a b => inferInstanceAs (Decidable (a.1 ≤ b.1))

/-- Python's `"\n".join(lines)`. -/
def joinNL : List String → String
  | [] => ""
  | [l] => l
  | l :: ls => l ++ "\n" ++ joinNL ls

/-- `format_markdown(sentences, chapters)`: chapter headings are consumed
from a queue sorted by `start_time`, sentinels become collapsed blank lines,
trailing blank lines are trimmed, and the result ends in one newline. -/
def format_markdown (sentences : List (Option ℚ × String)) (chapters : List (ℚ × String)) :
    String :=
  let queue := List.insertionSort byStart chapters
  let out := (sentences.foldl fmStep (queue, [])).2
  let out := (out.reverse.dropWhile (· = "")).reverse
  joinNL out ++ "\n"

/-- C3: on the word stream `[(0.0, "Hello"), (0.5, "world."), (3.0, "Next"),
(3.4, "sentence.")]` with `pause_threshold = 2.0` and timestamps enabled,
`words_to_sentences` returns exactly the sentence unit `(0.0, "[0:00] Hello
world.")`, a paragraph-break sentinel, and the sentence unit `(3.0, "[0:03]
Next sentence.")`. -/
theorem words_to_sentences_example_stream :
    words_to_sentences [(0, "Hello"), (1/2, "world."), (3, "Next"), (17/5, "sentence.")] 2 true =
      [(some 0, "[0:00] Hello world."), (none, ""), (some 3, "[0:03] Next sentence.")] := by
  decide

/-- C1 (failing input): with timestamps enabled, the one-word sentence
`"Yes."` that immediately follows a completed sentence is flushed while the
pending timestamp is still cleared (`None`), so it is emitted as the
non-sentinel unit `(None, "Yes.")` with no `[M:SS]` prefix — the
next-sentence-start bookkeeping of `words_to_sentences` runs only after the
sentence-end check, contradicting the documented behaviour that sentence
text includes a `[M:SS]` prefix whenever timestamps are enabled. -/
theorem words_to_sentences_drops_prefix_on_immediate_end :
    words_to_sentences [(0, "Hi."), (1, "Yes.")] 2 true =
      [(some 0, "[0:00] Hi."), (none, "Yes.")] := by
  decide

/-- C2 (failing input): a chapter with an empty title at the head of the
queue makes the chapter loop of `format_markdown` `break` without popping
it, so the later chapter `(0, "B")` — whose `start_time` is at or before the
unit's timestamp and whose title is non-empty — is never inserted: the
output contains no `## B` heading. -/
theorem format_markdown_empty_title_blocks_queue :
    format_markdown [(some 0, "x")] [(0, ""), (0, "B")] = "x\n" := by
  decide

/-! ### The paragraph-sentinel invariant of `words_to_sentences` (C10) -/

/-- No two adjacent units are both paragraph-break sentinels `(None, "")`. -/
def noTwoSent (a b : Option ℚ × String) : Prop :=
  ¬(a = (none, "") ∧ b = (none, ""))

/-- A well-formed unit list: it does not start with a paragraph-break
sentinel and has no two consecutive sentinels. -/
def goodUnits (l : List (Option ℚ × String)) : Prop :=
  l.head? ≠ some ((none : Option ℚ), "") ∧ l.Chain' noTwoSent

/-- The loop invariant of `words_to_sentences`: the emitted units are
well-formed; with an empty buffer the last emitted unit (if any) is not a
sentinel; with a non-empty buffer a pending timestamp exists. -/
def segInv (st : SegState) : Prop :=
  goodUnits st.result ∧
  (st.buffer = [] →
    st.result = [] ∨ ∃ u, st.result.getLast? = some u ∧ u ≠ ((none : Option ℚ), "")) ∧
  (st.buffer ≠ [] → st.pending ≠ none)

theorem goodUnits_append_nonsent {l : List (Option ℚ × String)} {u : Option ℚ × String}
    (hl : goodUnits l) (hu : u ≠ (none, "")) : goodUnits (l ++ [u]) := by
  obtain ⟨hh, hc⟩ := hl
  constructor
  · cases l with
    | nil => simpa using hu
    | cons a t => simpa using hh
  · rw [List.chain'_append]
    refine ⟨hc, List.chain'_singleton u, ?_⟩
    intro x _ y hy
    simp only [List.head?_cons, Option.mem_def, Option.some.injEq] at hy
    subst hy
    exact fun h => hu h.2

theorem goodUnits_append_sent {l : List (Option ℚ × String)} {u : Option ℚ × String}
    (hl : goodUnits l) (hlast : l.getLast? = some u) (hu : u ≠ (none, "")) :
    goodUnits (l ++ [(none, "")]) := by
  obtain ⟨hh, hc⟩ := hl
  have hne : l ≠ [] := by
    intro h; rw [h] at hlast; simp at hlast
  constructor
  · cases l with
    | nil => exact absurd rfl hne
    | cons a t => simpa using hh
  · rw [List.chain'_append]
    refine ⟨hc, List.chain'_singleton _, ?_⟩
    intro x hx y hy
    simp only [Option.mem_def] at hx
    rw [hlast] at hx
    cases hx
    simp only [List.head?_cons, Option.mem_def, Option.some.injEq] at hy
    subst hy
    exact fun h => hu h.1

theorem joinWords_ne_empty {l : List String} {w : String} (hw : w ∈ l) (hne : w ≠ "") :
    joinWords l ≠ "" := by
  induction l with
  | nil => cases hw
  | cons x xs ih =>
    cases xs with
    | nil =>
      simp only [List.mem_singleton] at hw
      subst hw
      simpa [joinWords]
    | cons y ys =>
      show x ++ " " ++ joinWords (y :: ys) ≠ ""
      intro h
      have hlen := congrArg String.length h
      rw [String.length_append, String.length_append] at hlen
      have h1 : (" " : String).length = 1 := rfl
      have h0 : ("" : String).length = 0 := rfl
      omega

theorem sentenceEnd_ne_empty {w : String} (h : sentenceEnd w = true) : w ≠ "" := by
  intro he
  subst he
  simp [sentenceEnd] at h

theorem flushUnit_ne_sent_of_some {tsFlag : Bool} {p : ℚ} {buf : List String} :
    flushUnit tsFlag (some p) buf ≠ ((none : Option ℚ), "") := by
  simp [flushUnit]

theorem flushUnit_ne_sent_of_text {tsFlag : Bool} {pend : Option ℚ} {buf : List String}
    (h : joinWords buf ≠ "") : flushUnit tsFlag pend buf ≠ ((none : Option ℚ), "") := by
  cases pend with
  | none => simpa [flushUnit] using h
  | some p => simp [flushUnit]

theorem wtsStep_inv (pause : ℚ) (tsFlag : Bool) (st : SegState) (w : ℚ × String)
    (h : segInv st) : segInv (wtsStep pause tsFlag st w) := by
  obtain ⟨hg, hemp, hpend⟩ := h
  simp only [wtsStep]
  split_ifs with h1 hb h3 h4 h5 h6 h7 h8 h9 h10 h11 <;> dsimp only at *
  · exact absurd rfl h4.2
  · obtain ⟨p, hp⟩ := Option.ne_none_iff_exists'.mp (hpend h3)
    have hF1 : flushUnit tsFlag st.pending st.buffer ≠ ((none : Option ℚ), "") := by
      rw [hp]; exact flushUnit_ne_sent_of_some
    have g1 := goodUnits_append_nonsent hg hF1
    have g2 := goodUnits_append_sent g1 (List.getLast?_concat _) hF1
    have g3 := goodUnits_append_nonsent g2 (@flushUnit_ne_sent_of_some tsFlag w.1 ([] ++ [w.2]))
    exact ⟨g3, fun _ => Or.inr ⟨_, List.getLast?_concat _,
      @flushUnit_ne_sent_of_some tsFlag w.1 ([] ++ [w.2])⟩, by simp⟩
  · exact absurd rfl h5.2
  · have hres : st.result ≠ [] := by
      rcases hb.2 with hc | hc
      · exact absurd hc h3
      · exact hc
    obtain ⟨u, hu, hune⟩ := (hemp (not_not.mp h3)).resolve_left hres
    have g1 := goodUnits_append_sent hg hu hune
    have g2 := goodUnits_append_nonsent g1 (@flushUnit_ne_sent_of_some tsFlag w.1 ([] ++ [w.2]))
    exact ⟨g2, fun _ => Or.inr ⟨_, List.getLast?_concat _,
      @flushUnit_ne_sent_of_some tsFlag w.1 ([] ++ [w.2])⟩, by simp⟩
  · exact absurd rfl h6.2
  · have hw2 : w.2 ≠ "" := sentenceEnd_ne_empty h1
    have hF : flushUnit tsFlag st.pending (st.buffer ++ [w.2]) ≠ ((none : Option ℚ), "") := by
      cases hpd : st.pending with
      | some p => exact flushUnit_ne_sent_of_some
      | none =>
        exact flushUnit_ne_sent_of_text
          (joinWords_ne_empty (List.mem_append_right _ (List.mem_singleton_self _)) hw2)
    exact ⟨goodUnits_append_nonsent hg hF,
      fun _ => Or.inr ⟨_, List.getLast?_concat _, hF⟩, by simp⟩
  · exact h9.1.elim
  · obtain ⟨p, hp⟩ := Option.ne_none_iff_exists'.mp (hpend h8)
    have hF1 : flushUnit tsFlag st.pending st.buffer ≠ ((none : Option ℚ), "") := by
      rw [hp]; exact flushUnit_ne_sent_of_some
    have g1 := goodUnits_append_nonsent hg hF1
    have g2 := goodUnits_append_sent g1 (List.getLast?_concat _) hF1
    refine ⟨g2, ?_, by simp⟩
    intro hc
    simp at hc
  · exact h10.1.elim
  · have hres : st.result ≠ [] := by
      rcases h7.2 with hc | hc
      · exact absurd hc h8
      · exact hc
    obtain ⟨u, hu, hune⟩ := (hemp (not_not.mp h8)).resolve_left hres
    refine ⟨goodUnits_append_sent hg hu hune, ?_, by simp⟩
    intro hc
    simp at hc
  · refine ⟨hg, ?_, by simp⟩
    intro hc
    simp at hc
  · refine ⟨hg, ?_, ?_⟩
    · intro hc
      simp at hc
    · exact fun _ hpn => h11 ⟨hpn, by simp⟩

theorem foldl_wtsStep_inv (pause : ℚ) (tsFlag : Bool) (ws : List (ℚ × String)) (st : SegState)
    (h : segInv st) : segInv (ws.foldl (wtsStep pause tsFlag) st) := by
  induction ws generalizing st with
  | nil => exact h
  | cons w ws ih => exact ih _ (wtsStep_inv pause tsFlag st w h)

theorem wts_goodUnits (words : List (ℚ × String)) (pause : ℚ) (tsFlag : Bool) :
    goodUnits (words_to_sentences words pause tsFlag) := by
  cases words with
  | nil => exact ⟨by simp [words_to_sentences], by simp [words_to_sentences]⟩
  | cons hd rest =>
    obtain ⟨t0, w0⟩ := hd
    obtain ⟨hg, -, hpend⟩ := foldl_wtsStep_inv pause tsFlag ((t0, w0) :: rest)
      { result := [], buffer := [], prevTs := t0, pending := some t0 }
      ⟨⟨by simp, by simp⟩, fun _ => Or.inl rfl, by simp⟩
    simp only [words_to_sentences]
    split
    · next hb =>
      obtain ⟨p, hp⟩ := Option.ne_none_iff_exists'.mp (hpend hb)
      exact goodUnits_append_nonsent hg (by rw [hp]; exact flushUnit_ne_sent_of_some)
    · exact hg

/-- C10: for every word stream, the output of `words_to_sentences` never
starts with a paragraph-break sentinel `(None, "")` and never contains two
consecutive sentinels: every sentinel is directly preceded by a non-sentinel
unit, and every sentinel except a final one is followed by one. -/
theorem words_to_sentences_sentinel_invariant (words : List (ℚ × String)) (pause : ℚ)
    (tsFlag : Bool) :
    (words_to_sentences words pause tsFlag).head? ≠ some ((none : Option ℚ), "") ∧
      (words_to_sentences words pause tsFlag).Chain'
        (fun a b => ¬(a = ((none : Option ℚ), "") ∧ b = ((none : Option ℚ), ""))) :=
  wts_goodUnits words pause tsFlag

/-! ### The VTT word extractor `parse_vtt` (C7, C8) -/

/-- Python's `\s` whitespace class (its ASCII part; the pipeline's texts are
line-oriented ASCII-with-unicode-words where only these occur). -/
def isSpaceChar (c : Char) : Bool :=
  c == ' ' || c == '\t' || c == '\n' || c == '\r' || c == '\x0b' || c == '\x0c'

/-- Python's `word.strip()`. -/
def pyStrip (cs : List Char) : List Char :=
  ((cs.dropWhile isSpaceChar).reverse.dropWhile isSpaceChar).reverse

def digitVal (c : Char) : Nat := c.toNat - 48

/-- `int(s)` on a string of decimal digits. -/
def digitsToNat (ds : List Char) : Nat := ds.foldl (fun n c => 10 * n + digitVal c) 0

/-- The `\d{2}:\d{2}:\d{2}\.\d{3}` inline-tag timestamp (after its `<`), as
`(hours, minutes, seconds, milliseconds)` with the rest of the text. -/
def tagTime : List Char → Option ((Nat × Nat × Nat × Nat) × List Char)
  | h1 :: h2 :: ':' :: m1 :: m2 :: ':' :: s1 :: s2 :: '.' :: f1 :: f2 :: f3 :: rest =>
    if h1.isDigit && h2.isDigit && m1.isDigit && m2.isDigit && s1.isDigit && s2.isDigit &&
        f1.isDigit && f2.isDigit && f3.isDigit then
      some ((digitsToNat [h1, h2], digitsToNat [m1, m2], digitsToNat [s1, s2],
             digitsToNat [f1, f2, f3]), rest)
    else none
  | _ => none

/-- Seconds of a tag timestamp: `h*3600 + m*60 + s + ms/1000`. -/
def tagSeconds (t : Nat × Nat × Nat × Nat) : ℚ :=
  (t.1 : ℚ) * 3600 + (t.2.1 : ℚ) * 60 + (t.2.2.1 : ℚ) + (t.2.2.2 : ℚ) / 1000

/-- `float(s)` on the `SS.mmm` field: integer part plus scaled fractional
digits.  (Python raises `ValueError` on malformed fields, aborting the whole
run; the model totalizes on the parsed digit prefix, which no claim about
the extractor's dedup/sort behaviour depends on.) -/
def parseFloat (cs : List Char) : ℚ :=
  let ip := cs.takeWhile Char.isDigit
  let rest := cs.dropWhile Char.isDigit
  let frac :=
    match rest with
    | '.' :: fs => fs.takeWhile Char.isDigit
    | _ => []
  (digitsToNat ip : ℚ) + (digitsToNat frac : ℚ) / (10 : ℚ) ^ frac.length

/-- `_ts_to_seconds("HH:MM:SS.mmm")`: split on `:`, then
`int(parts[0])*3600 + int(parts[1])*60 + float(parts[2])`. -/
def tsToSeconds (s : String) : ℚ :=
  match s.splitOn ":" with
  | h :: m :: sec :: _ =>
    (digitsToNat (h.data.takeWhile Char.isDigit) : ℚ) * 3600 +
      (digitsToNat (m.data.takeWhile Char.isDigit) : ℚ) * 60 + parseFloat sec.data
  | _ => 0

/-- `_LEADING_WORD_RE.match(second_line)`: the non-empty prefix before the
first `<` (the lazy `[^\n<]+?` cannot cross a `<`), accepted only when an
inline `<HH:MM:SS.mmm` timestamp tag starts there (the lookahead). -/
def leadingWord (cs : List Char) : Option (List Char) :=
  let pre := cs.takeWhile (· ≠ '<')
  match cs.dropWhile (· ≠ '<') with
  | '<' :: rest => if pre ≠ [] ∧ (tagTime rest).isSome then some pre else none
  | _ => none

/-- The lazy `(.*?)</c>` tail of `_WORD_TAG_RE`: the characters (never a
newline, since `.` does not match one) up to the first `</c>`. -/
def takeToCloseC : List Char → Option (List Char × List Char)
  | '<' :: '/' :: 'c' :: '>' :: rest => some ([], rest)
  | '\n' :: _ => none
  | c :: rest =>
    match takeToCloseC rest with
    | some (w, r) => some (c :: w, r)
    | none => none
  | [] => none

/-- One match of `_WORD_TAG_RE` at the current position:
`<HH:MM:SS.mmm><c>` then the greedy `\s*` then the lazy word up to `</c>`.
Returns the tag time, the word characters and the rest after `</c>`. -/
def matchWordTag (cs : List Char) : Option ((Nat × Nat × Nat × Nat) × List Char × List Char) :=
  match cs with
  | '<' :: rest =>
    match tagTime rest with
    | some (t, r1) =>
      match r1 with
      | '>' :: '<' :: 'c' :: '>' :: r2 =>
        match takeToCloseC (r2.dropWhile isSpaceChar) with
        | some (w, r3) => some (t, w, r3)
        | none => none
      | _ => none
    | none => none
  | _ => none

/-- The `_WORD_TAG_RE.finditer` scan: non-overlapping matches found left to
right, resuming after each match's end (`skip` counts the characters of the
current match still to pass over); on failure the scan advances one
character. -/
def wordTagScan : Nat → List Char → List ((Nat × Nat × Nat × Nat) × List Char)
  | _, [] => []
  | skip + 1, _ :: t => wordTagScan skip t
  | 0, c :: t =>
    match matchWordTag (c :: t) with
    | some (tm, w, rest) => (tm, w) :: wordTagScan ((c :: t).length - rest.length - 1) t
    | none => wordTagScan 0 t

/-- `_parse_rolling_cue(cue_start, raw)`: needs at least two lines; the
leading word of the second line carries the cue's own start time, the
inline-tagged words their own timestamps; each word is stripped and dropped
when empty. -/
def parseRollingCue (cueStart : String) (raw : String) : List (ℚ × String) :=
  match raw.splitOn "\n" with
  | _ :: second :: _ =>
    let lead : List (ℚ × String) :=
      match leadingWord second.data with
      | some w =>
        let w' := pyStrip w
        if w' ≠ [] then [(tsToSeconds cueStart, String.mk w')] else []
      | none => []
    lead ++ (wordTagScan 0 second.data).filterMap (fun tw =>
      let w' := pyStrip tw.2
      if w' ≠ [] then some (tagSeconds tw.1, String.mk w') else none)
  | _ => []

/-- `"<c>" in raw`. -/
def hasCTag : List Char → Bool
  | '<' :: 'c' :: '>' :: _ => true
  | _ :: t => hasCTag t
  | [] => false

/-- The `seen` set of `parse_vtt`: keep each pair's earliest occurrence,
drop repeats. -/
def dedupFirst (seen : List (ℚ × String)) : List (ℚ × String) → List (ℚ × String)
  | [] => []
  | x :: xs => if x ∈ seen then dedupFirst seen xs else x :: dedupFirst (x :: seen) xs

/-- All `(seconds, word)` pairs of the processed cues in cue order (a cue
without an inline `<c>` tag is skipped). -/
def cuePairs (cues : List (String × String)) : List (ℚ × String) :=
  (cues.filter (fun c => hasCTag c.2.data)).flatMap (fun c => parseRollingCue c.1 c.2)

instance : IsTotal (ℚ × String) byStart := ⟨fun a b => le_total a.1 b.1⟩

instance : IsTrans (ℚ × String) byStart := ⟨fun _ _ _ h1 h2 => le_trans h1 h2⟩

/-- `parse_vtt(path)` on the cue list: deduplicate by the exact
`(timestamp, word)` pair keeping first occurrences, then stable-sort by
timestamp ascending. -/
def parse_vtt (cues : List (String × String)) : List (ℚ × String) :=
  List.insertionSort byStart (dedupFirst [] (cuePairs cues))

theorem dedupFirst_nodup (seen : List (ℚ × String)) (l : List (ℚ × String)) :
    (dedupFirst seen l).Nodup ∧ ∀ x ∈ dedupFirst seen l, x ∉ seen := by
  induction l generalizing seen with
  | nil => simp [dedupFirst]
  | cons x xs ih =>
    by_cases hx : x ∈ seen
    · simpa [dedupFirst, hx] using ih seen
    · obtain ⟨hn, hrest⟩ := ih (x :: seen)
      refine ⟨?_, ?_⟩
      · simp only [dedupFirst, hx, if_false, List.nodup_cons]
        exact ⟨fun hmem => (hrest x hmem) (List.mem_cons_self x seen), hn⟩
      · intro y hy
        simp only [dedupFirst, hx, if_false, List.mem_cons] at hy
        rcases hy with rfl | hy
        · exact hx
        · exact fun hc => (hrest y hy) (List.mem_cons_of_mem _ hc)

theorem mem_dedupFirst (seen : List (ℚ × String)) (l : List (ℚ × String)) (x : ℚ × String) :
    x ∈ dedupFirst seen l ↔ x ∈ l ∧ x ∉ seen := by
  induction l generalizing seen with
  | nil => simp [dedupFirst]
  | cons y ys ih =>
    by_cases hy : y ∈ seen
    · rw [dedupFirst, if_pos hy, ih]
      constructor
      · rintro ⟨h1, h2⟩
        exact ⟨List.mem_cons_of_mem _ h1, h2⟩
      · rintro ⟨h1, h2⟩
        rcases List.mem_cons.mp h1 with rfl | h1
        · exact absurd hy h2
        · exact ⟨h1, h2⟩
    · rw [dedupFirst, if_neg hy]
      simp only [List.mem_cons, ih (y :: seen)]
      constructor
      · rintro (rfl | ⟨h1, h2⟩)
        · exact ⟨Or.inl rfl, hy⟩
        · exact ⟨Or.inr h1, fun hc => h2 (Or.inr hc)⟩
      · rintro ⟨rfl | h1, h2⟩
        · exact Or.inl rfl
        · by_cases hxy : x = y
          · exact Or.inl hxy
          · exact Or.inr ⟨h1, by simp [List.mem_cons, hxy, h2]⟩

theorem dedupFirst_take (seen : List (ℚ × String)) (l : List (ℚ × String)) (n : ℕ) :
    ∃ t, dedupFirst seen l = dedupFirst seen (l.take n) ++ t := by
  induction l generalizing seen n with
  | nil => exact ⟨[], by simp [dedupFirst]⟩
  | cons x xs ih =>
    match n with
    | 0 => exact ⟨dedupFirst seen (x :: xs), by simp [dedupFirst]⟩
    | m + 1 =>
      by_cases hx : x ∈ seen
      · obtain ⟨t, ht⟩ := ih seen m
        exact ⟨t, by simp [dedupFirst, hx, ht]⟩
      · obtain ⟨t, ht⟩ := ih (x :: seen) m
        exact ⟨t, by simp [dedupFirst, hx, ht]⟩

/-- C7: every exact `(timestamp, word)` pair appears at most once in
`parse_vtt`'s output — the output has no duplicates, so a pair fed from two
overlapping cues is yielded exactly once; a pair is in the output exactly
when some processed cue produced it; and the deduplicated stream of any
prefix of the pair stream is a prefix of the whole deduplicated stream, so
the retained occurrence of each pair is the earliest-inserted one. -/
theorem parse_vtt_dedup (cues : List (String × String)) :
    (parse_vtt cues).Nodup ∧
      (∀ p : ℚ × String, p ∈ parse_vtt cues ↔ p ∈ cuePairs cues) ∧
      (∀ n, ∃ t, dedupFirst [] (cuePairs cues) =
        dedupFirst [] ((cuePairs cues).take n) ++ t) := by
  have hperm := List.perm_insertionSort byStart (dedupFirst [] (cuePairs cues))
  have hnd : (parse_vtt cues).Nodup :=
    hperm.nodup_iff.mpr (dedupFirst_nodup [] (cuePairs cues)).1
  have hmem : ∀ p : ℚ × String, p ∈ parse_vtt cues ↔ p ∈ cuePairs cues := by
    intro p
    rw [parse_vtt, List.mem_insertionSort, mem_dedupFirst]
    simp
  exact ⟨hnd, hmem, fun n => dedupFirst_take [] (cuePairs cues) n⟩

/-- C8: the timestamps of `parse_vtt`'s output are non-decreasing: the
deduplicated word list is stable-sorted by timestamp ascending before being
returned. -/
theorem parse_vtt_sorted (cues : List (String × String)) :
    (parse_vtt cues).Pairwise (fun a b : ℚ × String => a.1 ≤ b.1) :=
  List.sorted_insertionSort byStart (dedupFirst [] (cuePairs cues))

/-! ### `apply_structure` (C4) -/

/-- `_TIMESTAMP_RE` and the linkifier's timestamp pattern,
`\[(\d+):(\d{2})\]`: one-or-more minute digits, a colon, exactly two second
digits, a closing bracket.  Returns `(minutes, seconds, rest)`. -/
def matchMarkerL : List Char → Option (Nat × Nat × List Char)
  | '[' :: cs =>
    (match cs.dropWhile Char.isDigit with
     | ':' :: d1 :: d2 :: ']' :: r =>
       if cs.takeWhile Char.isDigit ≠ [] ∧ d1.isDigit ∧ d2.isDigit then
         some (digitsToNat (cs.takeWhile Char.isDigit), digitsToNat [d1, d2], r)
       else none
     | _ => none)
  | _ => none

/-- `_TIMESTAMP_RE.sub("", line)`: remove a leading `[M:SS]` marker and the
whitespace after it (`^` is not multiline, so only a match at the start of
the string is removed). -/
def stripTimestamp (s : String) : String :=
  match matchMarkerL s.data with
  | some (_, _, r) => String.mk (r.dropWhile isSpaceChar)
  | none => s

/-- `line.rstrip()` (its ASCII whitespace part). -/
def pyRstrip (s : String) : String :=
  String.mk (s.data.reverse.dropWhile isSpaceChar).reverse

/-- `line.startswith("#")`. -/
def isHeading (s : String) : Bool :=
  match s.data with
  | '#' :: _ => true
  | _ => false

/-- The hints object of `apply_structure`: a title, `line`-keyed section
headings and paragraph-break line numbers (1-based). -/
structure Hints where
  title : String
  sections : List (Nat × String)
  paragraphs : List Nat

/-- `sections = {s["line"]: s["title"] for s in hints.get("sections", [])}`
looked up at line `i` (a repeated key keeps the last entry, as a Python dict
comprehension does). -/
def sectionTitle (sections : List (Nat × String)) (i : Nat) : Option String :=
  ((sections.filter (fun p => p.1 = i)).getLast?).map (fun p => p.2)

/-- `_flush_para()`: emit the joined paragraph buffer, if non-empty. -/
def flushPara (out : List String) (para : List String) : List String :=
  if para ≠ [] then out ++ [joinWords para] else out

/-- One iteration of the `for i, line in enumerate(lines, 1)` loop of
`apply_structure`: skip blank lines; emit pre-existing headings verbatim
with surrounding blanks; at a section line emit `## title`; at a
paragraph-break line flush; accumulate the line into the paragraph buffer,
with its leading timestamp stripped unless it starts the paragraph. -/
def asStep (hints : Hints) (st : List String × List String) (il : Nat × String) :
    List String × List String :=
  let stripped := pyRstrip il.2
  if stripped = "" then st
  else if isHeading stripped then
    (ensureBlank (flushPara st.1 st.2) ++ [stripped, ""], [])
  else
    match sectionTitle hints.sections il.1 with
    | some t =>
      (ensureBlank (flushPara st.1 st.2) ++ ["## " ++ t, ""], [stripped])
    | none =>
      if il.1 ∈ hints.paragraphs then
        (ensureBlank (flushPara st.1 st.2), [stripped])
      else
        (st.1, st.2 ++ [if st.2 ≠ [] then stripTimestamp stripped else stripped])

/-- `apply_structure(lines, hints)`: the optional `# title`, the line loop,
and the final paragraph flush, joined by newlines. -/
def apply_structure (lines : List String) (hints : Hints) : String :=
  let init : List String × List String :=
    (if hints.title ≠ "" then ["# " ++ hints.title, ""] else [], [])
  let fin := (List.enumFrom 1 lines).foldl (asStep hints) init
  joinNL (flushPara fin.1 fin.2) ++ "\n"

/-- C4: on three non-blank, non-heading lines with hints
`{title: "T", sections: [{line: 2, title: "S"}], paragraphs: []}`,
`apply_structure` produces exactly the lines `# T`, blank, line 1, blank,
`## S`, blank, then lines 2 and 3 joined into one paragraph line with line
3's leading `[M:SS]` timestamp stripped. -/
theorem apply_structure_round_trip (l1 l2 l3 : String)
    (h1 : pyRstrip l1 = l1) (h2 : pyRstrip l2 = l2) (h3 : pyRstrip l3 = l3)
    (n1 : l1 ≠ "") (n2 : l2 ≠ "") (n3 : l3 ≠ "")
    (g1 : isHeading l1 = false) (g2 : isHeading l2 = false) (g3 : isHeading l3 = false) :
    apply_structure [l1, l2, l3] ⟨"T", [(2, "S")], []⟩ =
      joinNL ["# T", "", l1, "", "## S", "", l2 ++ " " ++ stripTimestamp l3] ++ "\n" := by
  simp [apply_structure, asStep, h1, h2, h3, n1, n2, n3, g1, g2, g3, sectionTitle,
    flushPara, ensureBlank, joinWords]

/-- C4 at a concrete input: three timestamped lines, the title `T` and the
section `S` at line 2. -/
theorem apply_structure_round_trip_witness :
    apply_structure ["[0:00] one", "[0:05] two", "[0:10] three"] ⟨"T", [(2, "S")], []⟩ =
      "# T\n\n[0:00] one\n\n## S\n\n[0:05] two three\n" :=
  (apply_structure_round_trip "[0:00] one" "[0:05] two" "[0:10] three"
    (by decide) (by decide) (by decide) (by decide) (by decide) (by decide)
    (by decide) (by decide) (by decide)).trans (by decide)

/-! ### `enrich_links` (C5, C6) -/

/-- `markdown.splitlines(keepends=True)` for LF line endings: each line
keeps its terminating newline. -/
def splitKeepNL : List Char → List (List Char)
  | [] => []
  | c :: t =>
    if c = '\n' then ['\n'] :: splitKeepNL t
    else
      match splitKeepNL t with
      | [] => [[c]]
      | l :: ls => (c :: l) :: ls

/-- `line.startswith("#")` on characters. -/
def isHeadingL : List Char → Bool
  | '#' :: _ => true
  | _ => false

/-- The `\[([^\]]*)\]\([^)]+\)` alternative of `_MD_LINK_OR_TS_RE` (an
existing Markdown link): `[`, text without `]`, `](`, a non-empty url
without `)`, then `)`.  Returns the match length; the character classes
cannot cross their stop character, so the match is deterministic. -/
def matchLinkLen (cs : List Char) : Option Nat :=
  match cs with
  | '[' :: r1 =>
    (match r1.dropWhile (fun c => c ≠ ']') with
     | ']' :: '(' :: r2 =>
       (match r2.dropWhile (fun c => c ≠ ')') with
        | ')' :: _ =>
          if r2.takeWhile (fun c => c ≠ ')') ≠ [] then
            some ((r1.takeWhile (fun c => c ≠ ']')).length +
              (r2.takeWhile (fun c => c ≠ ')')).length + 4)
          else none
        | _ => none)
     | _ => none)
  | _ => none

/-- The `\[\d+:\d{2}\]` alternative of `_MD_LINK_OR_TS_RE` (a timestamp
marker): its match length. -/
def matchTsLen (cs : List Char) : Option Nat :=
  match matchMarkerL cs with
  | some (_, _, r) => some (cs.length - r.length)
  | none => none

/-- One `_MD_LINK_OR_TS_RE` match at the current position: the link
alternative is tried first (regex alternation order). -/
def protMatchLen (cs : List Char) : Option Nat :=
  (matchLinkLen cs).orElse (fun _ => matchTsLen cs)

/-- `_MD_LINK_OR_TS_RE.finditer(text)`: the protected spans as index pairs,
non-overlapping, scanning left to right and resuming after each match
(`skip` counts the characters of the current match still to pass over). -/
def protSpansAux : Nat → Nat → List Char → List (Nat × Nat)
  | _, _, [] => []
  | skip + 1, i, _ :: t => protSpansAux skip (i + 1) t
  | 0, i, c :: t =>
    match protMatchLen (c :: t) with
    | some n => (i, i + n) :: protSpansAux (n - 1) (i + 1) t
    | none => protSpansAux 0 (i + 1) t

def protectedSpans (cs : List Char) : List (Nat × Nat) := protSpansAux 0 0 cs

/-- `_in_protected(start, end)`: the match start lies inside a protected
span, or the match end lies (properly) inside one. -/
def inProtected (spans : List (Nat × Nat)) (s e : Nat) : Bool :=
  spans.any (fun q =>
    (decide (q.1 ≤ s) && decide (s < q.2)) || (decide (q.1 < e) && decide (e ≤ q.2)))

/-- Case-insensitive matching (`re.IGNORECASE`): compare lowercased
characters. -/
def lowerList (cs : List Char) : List Char := cs.map Char.toLower

/-- Does the lowercased pattern start at the head, with enough characters? -/
def lowerPrefix (p cs : List Char) : Bool :=
  decide (lowerList p = lowerList (cs.take p.length)) && decide (p.length ≤ cs.length)

/-- `pattern.finditer(text)` for the escaped phrase: case-insensitive,
non-overlapping occurrences found left to right, resuming after each
match's end. -/
def occAux (p : List Char) : Nat → Nat → List Char → List (Nat × Nat)
  | _, _, [] => []
  | skip + 1, i, _ :: t => occAux p skip (i + 1) t
  | 0, i, c :: t =>
    if lowerPrefix p (c :: t) then (i, i + p.length) :: occAux p (p.length - 1) (i + 1) t
    else occAux p 0 (i + 1) t

/-- All occurrences of the phrase; an empty pattern matches emptily at every
position, as in Python. -/
def occurrences (t p : List Char) : List (Nat × Nat) :=
  if p = [] then (List.range (t.length + 1)).map (fun i => (i, i)) else occAux p 0 0 t

/-- The `for m in pattern.finditer(text)` loop of `_replace_first`: the
first occurrence not inside a protected span. -/
def firstFreeMatch (t p : List Char) : Option (Nat × Nat) :=
  (occurrences t p).find? (fun se => !inProtected (protectedSpans t) se.1 se.2)

/-- The slice `text[a:b]`. -/
def sliceL (t : List Char) (a b : Nat) : List Char := (t.drop a).take (b - a)

/-- `_replace_first(text, phrase, url)`:
`text[:start] + "[" + matched + "](" + url + ")" + text[end:]` at the first
free match (the matched text keeps its original case), or the text unchanged. -/
def replaceFirstL (t p url : List Char) : List Char × Bool :=
  match firstFreeMatch t p with
  | some (s, e) =>
    (t.take s ++ '[' :: (sliceL t s e ++ ']' :: '(' :: (url ++ [')'])) ++ t.drop e, true)
  | none => (t, false)

/-- The inner `for i, line in enumerate(lines)` loop of `enrich`: skip
heading lines; replace in the first line where the phrase has a free match. -/
def linkFirstLine (p url : List Char) : List (List Char) → List (List Char) × Bool
  | [] => ([], false)
  | l :: ls =>
    if isHeadingL l then
      ((l :: (linkFirstLine p url ls).1), (linkFirstLine p url ls).2)
    else if (replaceFirstL l p url).2 then ((replaceFirstL l p url).1 :: ls, true)
    else ((l :: (linkFirstLine p url ls).1), (linkFirstLine p url ls).2)

/-- The outer phrase loop of `enrich` with its `used_phrases` set: a phrase
already used (case-insensitively) is skipped; a successful replacement
marks the phrase used. -/
def enrichAux : List (List Char × List Char) → List (List Char) → List (List Char) →
    List (List Char)
  | [], _, lines => lines
  | (p, url) :: rest, used, lines =>
    if lowerList p ∈ used then enrichAux rest used lines
    else if (linkFirstLine p url lines).2 then
      enrichAux rest (lowerList p :: used) (linkFirstLine p url lines).1
    else enrichAux rest used (linkFirstLine p url lines).1

/-- The sort relation of `enrich`'s phrase list: descending phrase length
(`sorted(link_map, key=lambda e: -len(e["phrase"]))`, a stable sort). -/
def byLenDesc (a b : List Char × List Char) : Prop := b.1.length ≤ a.1.length

instance : DecidableRel byLenDesc := fun a b => Nat.decLe b.1.length a.1.length

/-- `enrich(markdown, link_map)`: phrases longest-first over the kept-ends
lines, joined back together. -/
def enrich (markdown : String) (lm : List (String × String)) : String :=
  let entries := List.insertionSort byLenDesc (lm.map (fun e => (e.1.data, e.2.data)))
  String.mk (List.flatten (enrichAux entries [] (splitKeepNL markdown.data)))

/-- C5: on `"machine learning is fun"` with the link map
`[("machine learning", "u1"), ("learning", "u2")]`, only the longer phrase
is linked; the shorter phrase's sole occurrence then lies inside the new
link span and stays untouched. -/
theorem enrich_longest_match :
    enrich "machine learning is fun" [("machine learning", "u1"), ("learning", "u2")] =
      "[machine learning](u1) is fun" := by
  decide

/-! ### The protected-span frame property of `enrich` (C6) -/

theorem take_segment {α : Type} (t : List α) (a b c : Nat) (h1 : a ≤ b) (h2 : b ≤ c) :
    t.take c = t.take a ++ ((t.drop a).take (b - a) ++ (t.drop b).take (c - b)) := by
  have k1 : t.take (a + (c - a)) = t.take a ++ (t.drop a).take (c - a) := List.take_add ..
  have k2 : (t.drop a).take ((b - a) + (c - b)) =
      (t.drop a).take (b - a) ++ ((t.drop a).drop (b - a)).take (c - b) := List.take_add ..
  have k3 : (t.drop a).drop (b - a) = t.drop (a + (b - a)) := List.drop_drop ..
  have ea : a + (c - a) = c := by omega
  have eb : (b - a) + (c - b) = c - a := by omega
  have ec : a + (b - a) = b := by omega
  rw [ea] at k1
  rw [eb] at k2
  rw [ec] at k3
  rw [k1, k2, k3]

theorem drop_segment {α : Type} (t : List α) (a b c : Nat) (h1 : c ≤ a) (h2 : a ≤ b) :
    t.drop c = (t.drop c).take (a - c) ++ ((t.drop a).take (b - a) ++ t.drop b) := by
  have k1 : (t.drop c).drop (a - c) = t.drop a := by
    rw [List.drop_drop]; congr 1; omega
  have k3 : (t.drop a).drop (b - a) = t.drop b := by
    rw [List.drop_drop]; congr 1; omega
  calc t.drop c = (t.drop c).take (a - c) ++ (t.drop c).drop (a - c) :=
        (List.take_append_drop ..).symm
    _ = (t.drop c).take (a - c) ++ t.drop a := by rw [k1]
    _ = (t.drop c).take (a - c) ++ ((t.drop a).take (b - a) ++ (t.drop a).drop (b - a)) := by
        rw [List.take_append_drop]
    _ = (t.drop c).take (a - c) ++ ((t.drop a).take (b - a) ++ t.drop b) := by rw [k3]

theorem slice_segment {α : Type} (t : List α) (s a b e : Nat) (hs : s ≤ a) (h1 : a ≤ b)
    (h2 : b ≤ e) :
    (t.drop s).take (e - s) =
      (t.drop s).take (a - s) ++ ((t.drop a).take (b - a) ++ (t.drop b).take (e - b)) := by
  have h := take_segment (t.drop s) (a - s) (b - s) (e - s) (by omega) (by omega)
  have k1 : (t.drop s).drop (a - s) = t.drop (s + (a - s)) := List.drop_drop ..
  have k2 : (t.drop s).drop (b - s) = t.drop (s + (b - s)) := List.drop_drop ..
  have e1 : s + (a - s) = a := by omega
  have e2 : s + (b - s) = b := by omega
  have e3 : (b - s) - (a - s) = b - a := by omega
  have e4 : (e - s) - (b - s) = e - b := by omega
  rw [e1] at k1
  rw [e2] at k2
  rw [k1, k2, e3, e4] at h
  exact h

theorem protSpansAux_le (cs : List Char) :
    ∀ skip i : Nat, ∀ q ∈ protSpansAux skip i cs, q.1 ≤ q.2 := by
  induction cs with
  | nil => simp [protSpansAux]
  | cons c t ih =>
    intro skip i q hq
    cases skip with
    | succ skip' => exact ih skip' (i + 1) q (by simpa [protSpansAux] using hq)
    | zero =>
      cases hm : protMatchLen (c :: t) with
      | some n =>
        simp only [protSpansAux, hm] at hq
        rcases List.mem_cons.mp hq with rfl | hq
        · simp
        · exact ih (n - 1) (i + 1) q hq
      | none =>
        simp only [protSpansAux, hm] at hq
        exact ih 0 (i + 1) q hq

theorem occAux_shape (p : List Char) (cs : List Char) :
    ∀ skip i : Nat, ∀ se ∈ occAux p skip i cs, se.2 = se.1 + p.length := by
  induction cs with
  | nil => simp [occAux]
  | cons c t ih =>
    intro skip i se hse
    cases skip with
    | succ skip' => exact ih skip' (i + 1) se (by simpa [occAux] using hse)
    | zero =>
      by_cases hp : lowerPrefix p (c :: t) = true
      · simp only [occAux, hp, if_true] at hse
        rcases List.mem_cons.mp hse with rfl | hse
        · rfl
        · exact ih (p.length - 1) (i + 1) se hse
      · simp only [occAux, hp] at hse
        simp only [Bool.false_eq_true, if_false] at hse
        exact ih 0 (i + 1) se hse

theorem occurrences_shape (t p : List Char) :
    ∀ se ∈ occurrences t p, se.2 = se.1 + p.length := by
  intro se hse
  by_cases hp : p = []
  · subst hp
    rw [occurrences, if_pos rfl] at hse
    obtain ⟨i, -, rfl⟩ := List.mem_map.mp hse
    simp
  · rw [occurrences, if_neg hp] at hse
    exact occAux_shape p t 0 0 se hse

theorem firstFreeMatch_not_in_protected (t p : List Char) (s e : Nat)
    (hp : p ≠ []) (hm : firstFreeMatch t p = some (s, e)) :
    ∀ q ∈ protectedSpans t, ¬(q.1 ≤ s ∧ e ≤ q.2) := by
  intro q hq hcon
  have hpred := List.find?_some hm
  have hshape : e = s + p.length := occurrences_shape t p (s, e) (List.mem_of_find?_eq_some hm)
  have hlen : 0 < p.length := List.length_pos.mpr hp
  simp only [Bool.not_eq_eq_eq_not, Bool.not_true] at hpred
  rw [inProtected] at hpred
  have hall := List.any_eq_false.mp hpred q hq
  simp at hall
  omega

theorem replaceFirstL_keeps_span (t p url : List Char) (q : Nat × Nat)
    (hq : q ∈ protectedSpans t) :
    ∃ u v, (replaceFirstL t p url).1 = u ++ sliceL t q.1 q.2 ++ v := by
  have hwf : q.1 ≤ q.2 := protSpansAux_le t 0 0 q hq
  cases hm : firstFreeMatch t p with
  | none =>
    refine ⟨t.take q.1, t.drop q.2, ?_⟩
    have h0 := drop_segment t q.1 q.2 0 (Nat.zero_le _) hwf
    simp only [List.drop_zero, Nat.sub_zero] at h0
    simp only [replaceFirstL, hm, sliceL]
    conv_lhs => rw [h0]
    simp [List.append_assoc]
  | some se =>
    obtain ⟨s, e⟩ := se
    have hshape : e = s + p.length := occurrences_shape t p (s, e) (List.mem_of_find?_eq_some hm)
    have hse : s ≤ e := by omega
    have hpred := List.find?_some hm
    simp only [Bool.not_eq_eq_eq_not, Bool.not_true] at hpred
    rw [inProtected] at hpred
    have hall := List.any_eq_false.mp hpred q hq
    simp at hall
    have hcases : e ≤ q.1 ∨ q.2 ≤ s ∨ (s ≤ q.1 ∧ q.2 ≤ e) := by omega
    simp only [replaceFirstL, hm]
    rcases hcases with hc | hc | ⟨hc1, hc2⟩
    · -- the whole replacement lies before the span
      refine ⟨t.take s ++ ('[' :: (sliceL t s e ++ ']' :: '(' :: (url ++ [')'])) ++
        (t.drop e).take (q.1 - e)), t.drop q.2, ?_⟩
      have hd := drop_segment t q.1 q.2 e hc hwf
      conv_lhs => rw [hd]
      simp [sliceL, List.append_assoc]
    · -- the whole replacement lies after the span
      refine ⟨t.take q.1, (t.drop q.2).take (s - q.2) ++
        ('[' :: (sliceL t s e ++ ']' :: '(' :: (url ++ [')'])) ++ t.drop e), ?_⟩
      have ht := take_segment t q.1 q.2 s hwf hc
      conv_lhs => rw [ht]
      simp [sliceL, List.append_assoc]
    · -- the match wraps the span: its text reappears inside the link text
      refine ⟨t.take s ++ '[' :: (t.drop s).take (q.1 - s),
        (t.drop q.2).take (e - q.2) ++ (']' :: '(' :: (url ++ [')'])) ++ t.drop e, ?_⟩
      have hs := slice_segment t s q.1 q.2 e hc1 hwf hc2
      simp only [sliceL]
      conv_lhs => rw [hs]
      simp [List.append_assoc]

theorem linkFirstLine_heading (p url : List Char) (lines : List (List Char)) :
    ∀ i : Nat, isHeadingL (lines.getD i []) = true →
      (linkFirstLine p url lines).1.getD i [] = lines.getD i [] := by
  induction lines with
  | nil => intro i _; simp [linkFirstLine]
  | cons l ls ih =>
    intro i hh
    by_cases hl : isHeadingL l = true
    · cases i with
      | zero => simp [linkFirstLine, hl]
      | succ j => simpa [linkFirstLine, hl] using ih j (by simpa using hh)
    · by_cases hr : (replaceFirstL l p url).2 = true
      · cases i with
        | zero => exact absurd (by simpa using hh) hl
        | succ j => simp [linkFirstLine, hl, hr]
      · cases i with
        | zero => simp [linkFirstLine, hl, hr]
        | succ j => simpa [linkFirstLine, hl, hr] using ih j (by simpa using hh)

theorem enrichAux_heading (entries : List (List Char × List Char)) :
    ∀ (used : List (List Char)) (lines : List (List Char)) (i : Nat),
      isHeadingL (lines.getD i []) = true →
      (enrichAux entries used lines).getD i [] = lines.getD i [] := by
  induction entries with
  | nil => intro used lines i _; simp [enrichAux]
  | cons entry rest ih =>
    intro used lines i hh
    obtain ⟨p, url⟩ := entry
    by_cases hu : lowerList p ∈ used
    · simp only [enrichAux, if_pos hu]
      exact ih used lines i hh
    · have hpres := linkFirstLine_heading p url lines i hh
      have hh' : isHeadingL ((linkFirstLine p url lines).1.getD i []) = true := by
        rw [hpres]; exact hh
      by_cases hr : (linkFirstLine p url lines).2 = true
      · simp only [enrichAux, if_neg hu, hr, if_true]
        exact (ih _ _ i hh').trans hpres
      · simp only [enrichAux, if_neg hu, hr]
        simp only [Bool.false_eq_true, if_false]
        exact (ih _ _ i hh').trans hpres

/-- C6: `enrich`'s replacements respect the protected spans and headings.
(1) A heading line passes through the whole phrase loop (`enrichAux`, to
which `enrich` applies its sorted phrase list) unchanged at its position;
(2) the match that `_replace_first` performs (`firstFreeMatch`, the first
occurrence surviving the `_in_protected` filter) never lies inside a
protected span — an existing `[text](url)` link or a `[M:SS]` timestamp
marker of the scan `protectedSpans`; (3) every replacement `_replace_first`
performs keeps the text of every protected span intact in its output: the
span's slice still occurs contiguously. -/
theorem enrich_protection :
    (∀ (entries : List (List Char × List Char)) (used : List (List Char))
        (lines : List (List Char)) (i : Nat),
        isHeadingL (lines.getD i []) = true →
        (enrichAux entries used lines).getD i [] = lines.getD i []) ∧
      (∀ (t p : List Char) (s e : Nat), p ≠ [] → firstFreeMatch t p = some (s, e) →
        ∀ q ∈ protectedSpans t, ¬(q.1 ≤ s ∧ e ≤ q.2)) ∧
      (∀ (t p url : List Char) (q : Nat × Nat), q ∈ protectedSpans t →
        ∃ u v, (replaceFirstL t p url).1 = u ++ sliceL t q.1 q.2 ++ v) :=
  ⟨enrichAux_heading, firstFreeMatch_not_in_protected, replaceFirstL_keeps_span⟩

/-! ### `linkify_timestamps` (C9) -/

/-- `f"{minutes}:{seconds:02d}"`. -/
def mmssText (m s : Nat) : List Char :=
  (toString m).data ++ [':'] ++ (if s < 10 then '0' :: (toString s).data else (toString s).data)

/-- The replacement `[M:SS](https://youtu.be/ID?t=N) SEP ` with
`N = minutes*60 + seconds`. -/
def renderTs (vid sep : List Char) (m s : Nat) : List Char :=
  ['['] ++ mmssText m s ++ [']', '('] ++ "https://youtu.be/".data ++ vid ++ "?t=".data ++
    (toString (m * 60 + s)).data ++ [')', ' '] ++ sep ++ [' ']

/-- How many characters `\[(\d+):(\d{2})\]\s*` consumes at the head,
with the parsed minutes and seconds (`\s*` is greedy). -/
def matchMarkerWsLen (cs : List Char) : Option (Nat × Nat × Nat) :=
  match matchMarkerL cs with
  | some (m, s, r) => some (m, s, (cs.length - r.length) + (r.takeWhile isSpaceChar).length)
  | none => none

/-- The `ts_re.sub(_replace, markdown)` scan with `re.MULTILINE`: `atStart`
tells whether the current position is the start of the string or follows a
newline (also one consumed by a previous match's `\s*`); `skip` counts the
characters of the current match still to pass over. -/
def linkGoAux (vid sep : List Char) : Bool → Nat → List Char → List Char
  | _, _, [] => []
  | _, skip + 1, c :: t => linkGoAux vid sep (c == '\n') skip t
  | atStart, 0, c :: t =>
    if atStart then
      match matchMarkerWsLen (c :: t) with
      | some (m, s, n) => renderTs vid sep m s ++ linkGoAux vid sep (c == '\n') (n - 1) t
      | none => c :: linkGoAux vid sep (c == '\n') 0 t
    else c :: linkGoAux vid sep (c == '\n') 0 t

/-- `linkify_timestamps(markdown, video_id, separator)`. -/
def linkify_timestamps (markdown vid sep : String) : String :=
  String.mk (linkGoAux vid.data sep.data true 0 markdown.data)

/-- The per-line effect of the linkifier: a line starting with a `[M:SS]`
marker has the marker and the whitespace after it replaced by the rendered
timestamp link; any other line is unchanged. -/
def lineF (vid sep : List Char) (l : List Char) : List Char :=
  match matchMarkerL l with
  | some (m, s, r) => renderTs vid sep m s ++ r.dropWhile isSpaceChar
  | none => l

/-- `"\n".join` on character lines. -/
def joinNLc : List (List Char) → List Char
  | [] => []
  | [l] => l
  | l :: ls => l ++ '\n' :: joinNLc ls

theorem takeWhile_stop {p : Char → Bool} (xs zs : List Char)
    (h : xs.dropWhile p ≠ []) :
    (xs ++ zs).takeWhile p = xs.takeWhile p ∧ (xs ++ zs).dropWhile p = xs.dropWhile p ++ zs := by
  induction xs with
  | nil => exact absurd rfl h
  | cons x xs ih =>
    by_cases hx : p x = true
    · have h' : xs.dropWhile p ≠ [] := by
        simpa [List.dropWhile_cons, hx] using h
      obtain ⟨t1, t2⟩ := ih h'
      simp [List.takeWhile_cons, List.dropWhile_cons, hx, t1, t2]
    · simp [List.takeWhile_cons, List.dropWhile_cons, hx]

theorem takeWhile_stop_all {p : Char → Bool} (xs : List Char) (q : Char) (zs : List Char)
    (hq : p q = false) :
    (xs ++ q :: zs).takeWhile p = xs.takeWhile p ∧
      (xs ++ q :: zs).dropWhile p = xs.dropWhile p ++ q :: zs := by
  induction xs with
  | nil => simp [List.takeWhile_cons, List.dropWhile_cons, hq]
  | cons x xs ih =>
    by_cases hx : p x = true
    · simp [List.takeWhile_cons, List.dropWhile_cons, hx, ih.1, ih.2]
    · simp [List.takeWhile_cons, List.dropWhile_cons, hx]

theorem matchMarkerL_shape (l : List Char) (m s : Nat) (r : List Char)
    (hm : matchMarkerL l = some (m, s, r)) :
    ∃ ds d1 d2, l = '[' :: (ds ++ ':' :: d1 :: d2 :: ']' :: r) ∧ ds ≠ [] ∧
      (∀ c ∈ ds, c.isDigit = true) ∧ d1.isDigit = true ∧ d2.isDigit = true ∧
      m = digitsToNat ds ∧ s = digitsToNat [d1, d2] := by
  unfold matchMarkerL at hm
  split at hm
  · next cs =>
    split at hm
    · next d1 d2 r' heq =>
      split at hm
      · next hguard =>
        rw [Option.some.injEq, Prod.mk.injEq, Prod.mk.injEq] at hm
        obtain ⟨rfl, rfl, rfl⟩ := hm
        refine ⟨cs.takeWhile Char.isDigit, d1, d2, ?_, hguard.1, ?_, hguard.2.1, hguard.2.2,
          rfl, rfl⟩
        · rw [← heq, List.takeWhile_append_dropWhile]
        · intro c hc
          exact List.mem_takeWhile_imp hc
      · exact absurd hm (by simp)
    · exact absurd hm (by simp)
  · exact absurd hm (by simp)

theorem matchMarkerL_of_shape (ds : List Char) (d1 d2 : Char) (r : List Char)
    (hds : ds ≠ []) (hall : ∀ c ∈ ds, c.isDigit = true) (h1 : d1.isDigit = true)
    (h2 : d2.isDigit = true) :
    matchMarkerL ('[' :: (ds ++ ':' :: d1 :: d2 :: ']' :: r)) =
      some (digitsToNat ds, digitsToNat [d1, d2], r) := by
  have htds : ds.takeWhile Char.isDigit = ds := List.takeWhile_eq_self_iff.mpr hall
  have hdds : ds.dropWhile Char.isDigit = [] := List.dropWhile_eq_nil_iff.mpr hall
  have hstop := takeWhile_stop_all (p := Char.isDigit) ds ':' (d1 :: d2 :: ']' :: r) (by decide)
  simp only [matchMarkerL]
  rw [hstop.2, hdds, List.nil_append, hstop.1, htds]
  simp [hds, h1, h2]

theorem matchMarkerL_append_some (l zs : List Char) (m s : Nat) (r : List Char)
    (hm : matchMarkerL l = some (m, s, r)) :
    matchMarkerL (l ++ zs) = some (m, s, r ++ zs) := by
  obtain ⟨ds, d1, d2, rfl, hds, hall, h1, h2, rfl, rfl⟩ := matchMarkerL_shape l m s r hm
  have := matchMarkerL_of_shape ds d1 d2 (r ++ zs) hds hall h1 h2
  simpa [List.append_assoc] using this

theorem matchMarkerL_append_none (l : List Char) (ys : List Char)
    (h : matchMarkerL l = none) : matchMarkerL (l ++ '\n' :: ys) = none := by
  cases hm : matchMarkerL (l ++ '\n' :: ys) with
  | none => rfl
  | some x =>
    exfalso
    obtain ⟨m, s, r⟩ := x
    obtain ⟨ds, d1, d2, heq, hds, hall, h1, h2, -, -⟩ :=
      matchMarkerL_shape (l ++ '\n' :: ys) m s r hm
    have hPn : '\n' ∉ '[' :: (ds ++ [':', d1, d2, ']']) := by
      intro hc
      rcases List.mem_cons.mp hc with hc | hc
      · exact absurd hc (by decide)
      rcases List.mem_append.mp hc with hc | hc
      · have hd := hall _ hc
        rw [show ('\n' : Char).isDigit = false from rfl] at hd
        exact absurd hd (by decide)
      rcases List.mem_cons.mp hc with hc | hc
      · exact absurd hc (by decide)
      rcases List.mem_cons.mp hc with hc | hc
      · rw [← hc] at h1
        exact absurd h1 (by decide)
      rcases List.mem_cons.mp hc with hc | hc
      · rw [← hc] at h2
        exact absurd h2 (by decide)
      rcases List.mem_cons.mp hc with hc | hc
      · exact absurd hc (by decide)
      · cases hc
    set P := '[' :: (ds ++ [':', d1, d2, ']']) with hP
    have heq2 : l ++ '\n' :: ys = P ++ r := by
      rw [heq, hP]
      simp [List.append_assoc]
    by_cases hlen : P.length ≤ l.length
    · have htake : l.take P.length = P := by
        have := congrArg (List.take P.length) heq2
        rw [List.take_append_of_le_length hlen, List.take_left] at this
        exact this
      have hl : l = P ++ l.drop P.length := by
        conv_lhs => rw [← List.take_append_drop P.length l, htake]
      have hre : '[' :: (ds ++ [':', d1, d2, ']']) ++ l.drop P.length =
          '[' :: (ds ++ ':' :: d1 :: d2 :: ']' :: l.drop P.length) := by
        simp [List.append_assoc]
      have hsome : matchMarkerL l =
          some (digitsToNat ds, digitsToNat [d1, d2], l.drop P.length) := by
        conv_lhs => rw [hl, hP]
        rw [hre]
        exact matchMarkerL_of_shape ds d1 d2 (l.drop P.length) hds hall h1 h2
      rw [h] at hsome
      cases hsome
    · push_neg at hlen
      have htake : P.take l.length = l := by
        have := congrArg (List.take l.length) heq2
        rw [List.take_left, List.take_append_of_le_length (le_of_lt hlen)] at this
        exact this.symm
      have hdropP : '\n' :: ys = P.drop l.length ++ r := by
        have := congrArg (List.drop l.length) heq2
        rw [List.drop_left, List.drop_append_of_le_length (le_of_lt hlen)] at this
        exact this
      have hne : P.drop l.length ≠ [] := by
        intro hc
        rw [hc] at hdropP
        have := congrArg List.length hdropP
        simp at this
        have := congrArg List.length heq2
        simp [hc] at this
        omega
      obtain ⟨c, cs, hcs⟩ := List.exists_cons_of_ne_nil hne
      have hc : c = '\n' := by
        rw [hcs] at hdropP
        exact (List.cons.injEq .. ▸ hdropP).1.symm
      have : '\n' ∈ P := by
        rw [← hc]
        exact List.mem_of_mem_drop (hcs ▸ List.mem_cons_self c cs)
      exact hPn this

theorem matchMarkerWsLen_none (cs : List Char) (h : matchMarkerL cs = none) :
    matchMarkerWsLen cs = none := by
  rw [matchMarkerWsLen, h]

theorem linkGoAux_skip (vid sep : List Char) (xs : List Char) :
    ∀ (a : Bool) (ys : List Char), '\n' ∉ xs → xs ≠ [] →
      linkGoAux vid sep a xs.length (xs ++ ys) = linkGoAux vid sep false 0 ys := by
  induction xs with
  | nil => intro a ys _ h; exact absurd rfl h
  | cons x xs ih =>
    intro a ys hn _
    have hx : (x == '\n') = false := by
      simp only [beq_eq_false_iff_ne, ne_eq]
      exact fun hc => hn (hc ▸ List.mem_cons_self x xs)
    by_cases hxs : xs = []
    · subst hxs
      simp [linkGoAux, hx]
    · have hn2 : '\n' ∉ xs := fun hc => hn (List.mem_cons_of_mem _ hc)
      calc linkGoAux vid sep a (x :: xs).length (x :: xs ++ ys)
          = linkGoAux vid sep (x == '\n') xs.length (xs ++ ys) := by
            simp [linkGoAux, List.length_cons]
        _ = linkGoAux vid sep false 0 ys := by rw [hx]; exact ih false ys hn2 hxs

theorem linkGoAux_pass (vid sep : List Char) (xs : List Char) :
    ∀ ys : List Char, '\n' ∉ xs →
      linkGoAux vid sep false 0 (xs ++ ys) = xs ++ linkGoAux vid sep false 0 ys := by
  induction xs with
  | nil => intro ys _; rfl
  | cons x xs ih =>
    intro ys hn
    have hx : (x == '\n') = false := by
      simp only [beq_eq_false_iff_ne, ne_eq]
      exact fun hc => hn (hc ▸ List.mem_cons_self x xs)
    have hn2 : '\n' ∉ xs := fun hc => hn (List.mem_cons_of_mem _ hc)
    calc linkGoAux vid sep false 0 (x :: xs ++ ys)
        = x :: linkGoAux vid sep (x == '\n') 0 (xs ++ ys) := by simp [linkGoAux]
      _ = x :: (xs ++ linkGoAux vid sep false 0 ys) := by rw [hx, ih ys hn2]
      _ = x :: xs ++ linkGoAux vid sep false 0 ys := by simp

theorem linkGoAux_nl (vid sep : List Char) (ys : List Char) :
    linkGoAux vid sep false 0 ('\n' :: ys) = '\n' :: linkGoAux vid sep true 0 ys := by
  simp [linkGoAux]

theorem linkGoAux_marker_shape (vid sep : List Char) (ds : List Char) (d1 d2 : Char)
    (r zs : List Char) (hds : ds ≠ []) (hall : ∀ c ∈ ds, c.isDigit = true)
    (h1 : d1.isDigit = true) (h2 : d2.isDigit = true)
    (hnl : '\n' ∉ '[' :: (ds ++ ':' :: d1 :: d2 :: ']' :: r))
    (hrest : r.dropWhile isSpaceChar ≠ []) :
    linkGoAux vid sep true 0 ('[' :: (ds ++ ':' :: d1 :: d2 :: ']' :: r) ++ zs) =
      renderTs vid sep (digitsToNat ds) (digitsToNat [d1, d2]) ++
        (r.dropWhile isSpaceChar ++ linkGoAux vid sep false 0 zs) := by
  have hms : matchMarkerL ('[' :: (ds ++ ':' :: d1 :: d2 :: ']' :: r) ++ zs) =
      some (digitsToNat ds, digitsToNat [d1, d2], r ++ zs) := by
    have := matchMarkerL_of_shape ds d1 d2 r hds hall h1 h2
    exact matchMarkerL_append_some _ zs _ _ _ this
  have hws := takeWhile_stop (p := isSpaceChar) r zs hrest
  have hwl : matchMarkerWsLen ('[' :: (ds ++ ':' :: d1 :: d2 :: ']' :: r) ++ zs) =
      some (digitsToNat ds, digitsToNat [d1, d2],
        ds.length + 5 + (r.takeWhile isSpaceChar).length) := by
    simp only [matchMarkerWsLen, hms, hws.1, Option.some.injEq, Prod.mk.injEq, true_and]
    simp only [List.length_append, List.length_cons, List.cons_append, List.length_nil]
    omega
  have hr : r ++ zs = r.takeWhile isSpaceChar ++ (r.dropWhile isSpaceChar ++ zs) := by
    rw [← List.append_assoc, List.takeWhile_append_dropWhile]
  have hsplit : (ds ++ ':' :: d1 :: d2 :: ']' :: r) ++ zs =
      ((ds ++ [':', d1, d2, ']']) ++ r.takeWhile isSpaceChar) ++
        (r.dropWhile isSpaceChar ++ zs) := by
    simp only [List.append_assoc, List.cons_append, List.nil_append]
    rw [hr]
  have hxs_len : ((ds ++ [':', d1, d2, ']']) ++ r.takeWhile isSpaceChar).length =
      ds.length + 5 + (r.takeWhile isSpaceChar).length - 1 := by
    simp [List.length_append]
    omega
  have hxs_ne : (ds ++ [':', d1, d2, ']']) ++ r.takeWhile isSpaceChar ≠ [] := by
    simp
  have hxs_nl : '\n' ∉ (ds ++ [':', d1, d2, ']']) ++ r.takeWhile isSpaceChar := by
    intro hc
    apply hnl
    rcases List.mem_append.mp hc with hc | hc
    · rcases List.mem_append.mp hc with hc | hc
      · exact List.mem_cons_of_mem _ (List.mem_append_left _ hc)
      · apply List.mem_cons_of_mem
        apply List.mem_append_right
        rcases List.mem_cons.mp hc with hc | hc
        · exact hc ▸ List.mem_cons_self _ _
        rcases List.mem_cons.mp hc with hc | hc
        · exact hc ▸ List.mem_cons_of_mem _ (List.mem_cons_self _ _)
        rcases List.mem_cons.mp hc with hc | hc
        · exact hc ▸ List.mem_cons_of_mem _ (List.mem_cons_of_mem _ (List.mem_cons_self _ _))
        rcases List.mem_cons.mp hc with hc | hc
        · exact hc ▸ List.mem_cons_of_mem _ (List.mem_cons_of_mem _
            (List.mem_cons_of_mem _ (List.mem_cons_self _ _)))
        · cases hc
    · have : '\n' ∈ r := (List.takeWhile_sublist _).subset hc
      exact List.mem_cons_of_mem _ (List.mem_append_right _
        (List.mem_cons_of_mem _ (List.mem_cons_of_mem _ (List.mem_cons_of_mem _
          (List.mem_cons_of_mem _ this)))))
  have hrest_nl : '\n' ∉ r.dropWhile isSpaceChar := by
    intro hc
    have : '\n' ∈ r := (List.dropWhile_sublist _).subset hc
    exact hnl (List.mem_cons_of_mem _ (List.mem_append_right _
      (List.mem_cons_of_mem _ (List.mem_cons_of_mem _ (List.mem_cons_of_mem _
        (List.mem_cons_of_mem _ this))))))
  calc linkGoAux vid sep true 0 ('[' :: (ds ++ ':' :: d1 :: d2 :: ']' :: r) ++ zs)
      = renderTs vid sep (digitsToNat ds) (digitsToNat [d1, d2]) ++
          linkGoAux vid sep ('[' == '\n')
            (ds.length + 5 + (r.takeWhile isSpaceChar).length - 1)
            ((ds ++ ':' :: d1 :: d2 :: ']' :: r) ++ zs) := by
        simp only [List.cons_append] at hwl ⊢
        rw [linkGoAux, if_pos rfl, hwl]
    _ = renderTs vid sep (digitsToNat ds) (digitsToNat [d1, d2]) ++
          (r.dropWhile isSpaceChar ++ linkGoAux vid sep false 0 zs) := by
        rw [hsplit, ← hxs_len]
        have hskip := linkGoAux_skip vid sep _ false (r.dropWhile isSpaceChar ++ zs) hxs_nl hxs_ne
        rw [show (('[' : Char) == '\n') = false from rfl, hskip]
        rw [linkGoAux_pass vid sep _ zs hrest_nl]

theorem linkGoAux_none_single (vid sep : List Char) (l : List Char)
    (hm : matchMarkerL l = none) (hnl : '\n' ∉ l) :
    linkGoAux vid sep true 0 l = l := by
  cases l with
  | nil => rfl
  | cons c t =>
    have hc : (c == '\n') = false := by
      simp only [beq_eq_false_iff_ne, ne_eq]
      exact fun h => hnl (h ▸ List.mem_cons_self c t)
    have hn2 : '\n' ∉ t := fun h => hnl (List.mem_cons_of_mem _ h)
    rw [linkGoAux, if_pos rfl, matchMarkerWsLen_none _ hm]
    have hpass := linkGoAux_pass vid sep t [] hn2
    simp only [List.append_nil] at hpass
    simp [hc, hpass, linkGoAux]

theorem linkGoAux_none_line (vid sep : List Char) (l J : List Char)
    (hm : matchMarkerL l = none) (hnl : '\n' ∉ l) :
    linkGoAux vid sep true 0 (l ++ '\n' :: J) =
      l ++ '\n' :: linkGoAux vid sep true 0 J := by
  cases l with
  | nil =>
    simp only [List.nil_append]
    rw [linkGoAux, if_pos rfl, matchMarkerWsLen_none _ (by rfl)]
    simp [linkGoAux]
  | cons c t =>
    have hc : (c == '\n') = false := by
      simp only [beq_eq_false_iff_ne, ne_eq]
      exact fun h => hnl (h ▸ List.mem_cons_self c t)
    have hn2 : '\n' ∉ t := fun h => hnl (List.mem_cons_of_mem _ h)
    have hmn := matchMarkerL_append_none (c :: t) J hm
    rw [List.cons_append] at hmn
    rw [List.cons_append, linkGoAux, if_pos rfl, matchMarkerWsLen_none _ hmn]
    have hpass := linkGoAux_pass vid sep t ('\n' :: J) hn2
    simp [hc, hpass, linkGoAux_nl]

theorem linkGoAux_join (vid sep : List Char) (lines : List (List Char))
    (hnl : ∀ l ∈ lines, '\n' ∉ l)
    (hrest : ∀ l ∈ lines, ∀ m s r, matchMarkerL l = some (m, s, r) →
      r.dropWhile isSpaceChar ≠ []) :
    linkGoAux vid sep true 0 (joinNLc lines) = joinNLc (lines.map (lineF vid sep)) := by
  induction lines with
  | nil => rfl
  | cons l ls ih =>
    have hnl_l : '\n' ∉ l := hnl l (List.mem_cons_self l ls)
    have hnl2 : ∀ x ∈ ls, '\n' ∉ x := fun x hx => hnl x (List.mem_cons_of_mem _ hx)
    have hrest2 : ∀ x ∈ ls, ∀ m s r, matchMarkerL x = some (m, s, r) →
        r.dropWhile isSpaceChar ≠ [] := fun x hx => hrest x (List.mem_cons_of_mem _ hx)
    cases ls with
    | nil =>
      show linkGoAux vid sep true 0 l = joinNLc [lineF vid sep l]
      cases hm : matchMarkerL l with
      | some x =>
        obtain ⟨m, s, r⟩ := x
        obtain ⟨ds, d1, d2, hl, hds, hall, h1, h2, rfl, rfl⟩ := matchMarkerL_shape l m s r hm
        subst hl
        have hr := hrest _ (List.mem_cons_self _ []) _ _ _ hm
        have hmark := linkGoAux_marker_shape vid sep ds d1 d2 r [] hds hall h1 h2 hnl_l hr
        simp only [List.append_nil] at hmark
        rw [hmark]
        simp [joinNLc, lineF, hm, linkGoAux]
      | none =>
        rw [linkGoAux_none_single vid sep l hm hnl_l]
        simp [joinNLc, lineF, hm]
    | cons l2 ls2 =>
      have hIH := ih hnl2 hrest2
      show linkGoAux vid sep true 0 (l ++ '\n' :: joinNLc (l2 :: ls2)) = _
      cases hm : matchMarkerL l with
      | some x =>
        obtain ⟨m, s, r⟩ := x
        obtain ⟨ds, d1, d2, hl, hds, hall, h1, h2, rfl, rfl⟩ := matchMarkerL_shape l m s r hm
        subst hl
        have hr := hrest _ (List.mem_cons_self _ (l2 :: ls2)) _ _ _ hm
        have hmark := linkGoAux_marker_shape vid sep ds d1 d2 r ('\n' :: joinNLc (l2 :: ls2))
          hds hall h1 h2 hnl_l hr
        rw [hmark, linkGoAux_nl, hIH]
        simp [joinNLc, lineF, hm, List.append_assoc]
      | none =>
        rw [linkGoAux_none_line vid sep l (joinNLc (l2 :: ls2)) hm hnl_l, hIH]
        simp [joinNLc, lineF, hm]

/-- A decidable per-line side condition: if the line starts with a `[M:SS]`
marker, something non-blank follows the marker's trailing whitespace on that
line.  (Without it the greedy `\s*` of the linkifier's pattern would consume
the line's terminating newline itself.) -/
def lineMarkerContentOk (l : List Char) : Bool :=
  match matchMarkerL l with
  | some x => !(x.2.2.dropWhile isSpaceChar).isEmpty
  | none => true

/-- C9: on text assembled from newline-free lines (each marker-led line
having visible content after the marker), `linkify_timestamps` rewrites
exactly the `[M:SS]` markers at line starts: the result is the line-wise
image under `lineF`, which replaces a leading marker (minutes `m`, seconds
`s`) and its trailing whitespace by
`[m:ss](https://youtu.be/ID?t=m*60+s) ▸ ` and leaves every line without a
leading marker — in particular every mid-line `[M:SS]` occurrence —
untouched. -/
theorem linkify_timestamps_line_starts (vid sep : String) (lines : List (List Char))
    (hnl : ∀ l ∈ lines, '\n' ∉ l)
    (hok : ∀ l ∈ lines, lineMarkerContentOk l = true) :
    linkify_timestamps (String.mk (joinNLc lines)) vid sep =
      String.mk (joinNLc (lines.map (lineF vid.data sep.data))) ∧
      ∀ l : List Char, matchMarkerL l = none → lineF vid.data sep.data l = l := by
  constructor
  · have hrest : ∀ l ∈ lines, ∀ m s r, matchMarkerL l = some (m, s, r) →
        r.dropWhile isSpaceChar ≠ [] := by
      intro l hl m s r hm
      have hk := hok l hl
      rw [lineMarkerContentOk, hm] at hk
      simpa using hk
    exact congrArg String.mk (linkGoAux_join vid.data sep.data lines hnl hrest)
  · intro l hm
    simp [lineF, hm]

/-- C9 at a concrete input: the line-start `[3:00]` is linkified with
`t=180`; the mid-line `[3:00]` is left untouched. -/
theorem linkify_timestamps_line_starts_witness :
    linkify_timestamps "[3:00] hi\nsee [3:00] there" "ID" "▸" =
      "[3:00](https://youtu.be/ID?t=180) ▸ hi\nsee [3:00] there" := by
  have h := (linkify_timestamps_line_starts "ID" "▸"
    ["[3:00] hi".data, "see [3:00] there".data] (by decide) (by decide)).1
  rw [show String.mk (joinNLc ["[3:00] hi".data, "see [3:00] there".data]) =
    "[3:00] hi\nsee [3:00] there" from by decide] at h
  rw [h]
  decide

end Vtt2Md
